import Mathlib

/-!
Verification of `src/app.py` (One_Click_Insight): a Flask service that parses an
LLM reply into structured insight records (`parse_detailed_insights`), selects and
renders a chart from a loaded table (`plot_chart`), and orchestrates the request
(`analyze`).  Python strings are modelled as `List Char`; the pandas DataFrame is
modelled as a list of named, typed columns; the plotly figure and its PNG/base64
encoding are modelled by an abstract chart description (`ChartFig`).
-/

/-- Python strings, modelled as lists of characters. -/
abbrev PyStr := List Char

/-- Python `str.isspace` characters relevant to `str.strip()` (ASCII whitespace). -/
def isPySpace (c : Char) : Bool :=
  c = ' ' || c = '\t' || c = '\n' || c = '\r' || c = '\x0b' || c = '\x0c'

/-- Python `str.lstrip()`. -/
def lstrip (s : PyStr) : PyStr := s.dropWhile isPySpace

/-- Python `str.rstrip()`. -/
def rstrip (s : PyStr) : PyStr := (lstrip s.reverse).reverse

/-- Python `str.strip()`. -/
def strip (s : PyStr) : PyStr := rstrip (lstrip s)

/-- Python `str.lower()` (ASCII case folding, as used on the label prefixes). -/
def lower (s : PyStr) : PyStr := s.map Char.toLower

/-- Python `str.startswith(pat)`: `startsWith s pat` is true iff `pat` is a prefix of `s`. -/
def startsWith : PyStr → PyStr → Bool
  | _, [] => true
  | [], _ :: _ => false
  | c :: s, p :: ps => c == p && startsWith s ps

/-- Python `str.endswith(pat)`. -/
def endsWithStr (s pat : PyStr) : Bool := startsWith s.reverse pat.reverse

/-- Python `text.split("\n")` (note `"".split("\n") == [""]`). -/
def splitNl : PyStr → List PyStr
  | [] => [[]]
  | '\n' :: rest => [] :: splitNl rest
  | c :: rest =>
    match splitNl rest with
    | l :: ls => (c :: l) :: ls
    | [] => [[c]]

/-- Python `text.split(",")` (note `"".split(",") == [""]`). -/
def splitComma : PyStr → List PyStr
  | [] => [[]]
  | ',' :: rest => [] :: splitComma rest
  | c :: rest =>
    match splitComma rest with
    | l :: ls => (c :: l) :: ls
    | [] => [[c]]

/-- Python `line.split(":", 1)[-1]`: the text after the first colon, or the whole
string when it contains no colon. -/
def afterColon (s : PyStr) : PyStr :=
  match s.dropWhile (fun c => !(c == ':')) with
  | [] => s
  | _ :: rest => rest

/-- Python `line.replace("**", "")`: removes the leftmost-first non-overlapping
occurrences of `"**"`. -/
def removeDStars : PyStr → PyStr
  | '*' :: '*' :: rest => removeDStars rest
  | c :: rest => c :: removeDStars rest
  | [] => []

/-- An insight record as built by `parse_detailed_insights` in `src/app.py`:
a Python dict whose possible keys are exactly these five; an absent key is `none`. -/
structure Insight where
  title : Option PyStr
  explanation : Option PyStr
  chart : Option PyStr
  columns : Option (List PyStr)
  tip : Option PyStr
deriving DecidableEq, Repr

/-- The empty insight dict `{}`. -/
def emptyInsight : Insight := ⟨none, none, none, none, none⟩

/-- Python truthiness of the `current` dict: `if current:` is false iff no key is set. -/
def Insight.isEmpty (i : Insight) : Bool :=
  i.title.isNone && i.explanation.isNone && i.chart.isNone &&
  i.columns.isNone && i.tip.isNone

/-- Parser loop state: the accumulated `insights` list and the in-progress `current` dict. -/
structure PState where
  insights : List Insight
  current : Insight
deriving DecidableEq, Repr

/-- The new-record trigger of `src/app.py` line 44-46: the (stripped) line starts with
`"title:"` case-insensitively, or with `"**"`, or is nonempty with a digit first
character and a `"."` among its first three characters. -/
def isTrigger (line : PyStr) : Bool :=
  startsWith (lower line) ['t','i','t','l','e',':'] ||
  startsWith (lower line) ['*','*'] ||
  (!line.isEmpty && (line.headD ' ').isDigit && (line.take 3).contains '.')

/-- `src/app.py` line 48-49: the fresh record `{"title": title}` started by a trigger line. -/
def mkRecord (line : PyStr) : Insight :=
  { title := some (strip (afterColon (removeDStars line))),
    explanation := none, chart := none, columns := none, tip := none }

/-- One iteration of the parser loop body of `parse_detailed_insights`
(`src/app.py` lines 44-59), applied to the already-stripped line. -/
def applyLine (st : PState) (line : PyStr) : PState :=
  if isTrigger line then
    { insights := if st.current.isEmpty then st.insights else st.insights ++ [st.current],
      current := mkRecord line }
  else if startsWith (lower line) ['e','x','p','l','a','n','a','t','i','o','n',':'] then
    { st with current := { st.current with explanation := some (strip (afterColon line)) } }
  else if startsWith (lower line) ['c','h','a','r','t',':'] then
    { st with current := { st.current with chart := some (strip (afterColon line)) } }
  else if startsWith (lower line) ['c','o','l','u','m','n','s',':'] then
    { st with current := { st.current with
        columns := some (((splitComma (strip (afterColon line))).map strip).filter
          (fun c => !c.isEmpty)) } }
  else if startsWith (lower line) ['t','i','p',':'] then
    { st with current := { st.current with tip := some (strip (afterColon line)) } }
  else st

/-- One iteration of the loop including the per-line `line.strip()` (`src/app.py` line 42). -/
def step (st : PState) (raw : PyStr) : PState := applyLine st (strip raw)

/-- The whole loop of `parse_detailed_insights`: `for line in text.strip().split("\n")`. -/
def parseLoop (text : PyStr) : PState :=
  (splitNl (strip text)).foldl step ⟨[], emptyInsight⟩

/-- `parse_detailed_insights` (`src/app.py` lines 37-63): the loop, then the final
`if current and current.get("title"): insights.append(current)`. -/
def parse_detailed_insights (text : PyStr) : List Insight :=
  let st := parseLoop text
  match st.current.title with
  | some t => if t.isEmpty then st.insights else st.insights ++ [st.current]
  | none => st.insights


/-! ## The table model (pandas DataFrame) -/

/-- A column's data: pandas dtype `object` (categorical/text) is `strs`; any numeric
dtype is `nums`, with values as exact rationals. -/
inductive ColData where
  | nums : List Rat → ColData
  | strs : List PyStr → ColData
deriving DecidableEq, Repr

/-- A named column of the loaded table. -/
structure DFCol where
  name : PyStr
  data : ColData
deriving DecidableEq, Repr

/-- The in-memory table: an ordered list of named columns. -/
abbrev DF := List DFCol

/-- `df[c]` / membership in `df.columns`: the first column named `c`, if any. -/
def findCol : DF → PyStr → Option ColData
  | [], _ => none
  | col :: rest, c => if col.name = c then some col.data else findCol rest c

/-- `df[c].dtype == 'object'`. -/
def isObjCol (d : ColData) : Bool :=
  match d with
  | .strs _ => true
  | .nums _ => false

/-- Lexicographic (code-point) order on strings, as pandas sorts group keys. -/
def strLe : PyStr → PyStr → Bool
  | [], _ => true
  | _ :: _, [] => false
  | a :: as, b :: bs =>
    if a.val < b.val then true
    else if a.val = b.val then strLe as bs
    else false

/-- Insert into a sorted list (used for the sorted group keys pandas produces). -/
def insertLe (le : α → α → Bool) (a : α) : List α → List α
  | [] => [a]
  | b :: bs => if le a b then a :: b :: bs else b :: insertLe le a bs

/-- Stable insertion sort by `le`. -/
def sortLe (le : α → α → Bool) (l : List α) : List α := l.foldr (insertLe le) []

/-- Distinct elements in first-occurrence order. -/
def dedupFO [DecidableEq α] : List α → List α
  | [] => []
  | a :: as => a :: (dedupFO as).filter (fun b => decide (b ≠ a))

/-- Sum of a list of rationals. -/
def sumRat (l : List Rat) : Rat := l.foldl (· + ·) 0

/-- `df.groupby(col1)[col2].mean()` for a string key column and numeric value column:
per distinct key (sorted ascending, as pandas does) the mean of the paired values. -/
def groupMeanStr (ks : List PyStr) (vs : List Rat) : List (PyStr × Rat) :=
  let pairs := ks.zip vs
  (sortLe strLe (dedupFO (pairs.map (·.1)))).map (fun k =>
    let g := (pairs.filter (fun p => p.1 = k)).map (·.2)
    (k, sumRat g / (g.length : Rat)))

/-- `df.groupby(col1)[col2].mean()` for a numeric key column and numeric value column. -/
def groupMeanNum (ks : List Rat) (vs : List Rat) : List (Rat × Rat) :=
  let pairs := ks.zip vs
  (sortLe (fun a b => decide (a ≤ b)) (dedupFO (pairs.map (·.1)))).map (fun k =>
    let g := (pairs.filter (fun p => p.1 = k)).map (·.2)
    (k, sumRat g / (g.length : Rat)))

/-- `df.groupby([col1, col2]).size()`: counts per distinct pair, keys sorted. -/
def pairCounts (xs ys : List PyStr) : List ((PyStr × PyStr) × Nat) :=
  let pairs := xs.zip ys
  (sortLe (fun a b => if a.1 = b.1 then strLe a.2 b.2 else strLe a.1 b.1)
      (dedupFO pairs)).map (fun k => (k, (pairs.filter (fun p => p = k)).length))

/-- `df[col].value_counts()`: distinct values with counts, sorted by count descending,
ties in first-occurrence order. -/
def valueCounts (vs : List PyStr) : List (PyStr × Nat) :=
  sortLe (fun a b => decide (b.2 ≤ a.2))
    ((dedupFO vs).map (fun v => (v, (vs.filter (fun w => w = v)).length)))

/-- The plotly figure built by `plot_chart`, by branch; stands in for the rendered
PNG/base64 payload, which is abstracted away. -/
inductive ChartFig where
  | groupedBar (x color : PyStr) (counts : List ((PyStr × PyStr) × Nat))
  | scatter (x y : PyStr) (pts : List (Rat × Rat))
  | meanBar (x y : PyStr) (means : List (PyStr × Rat))
  | meanBarNum (x y : PyStr) (means : List (Rat × Rat))
  | freqBar (x : PyStr) (counts : List (PyStr × Nat))
  | hist (x : PyStr) (vals : List Rat)
deriving DecidableEq, Repr

/-- `src/app.py` line 69. -/
def missingColsMsg : PyStr := "Missing or invalid columns".toList

/-- Models the message `str(e)` of the pandas `TypeError` raised by
`groupby(col1)[col2].mean()` when `col2` has dtype `object` (string means cannot be
computed); caught by the `except` of `plot_chart`.  The exact wording is not
load-bearing for any claim. -/
def groupMeanErrMsg : PyStr := "agg function failed [how->mean]".toList

/-- `plot_chart(df, insight)` (`src/app.py` lines 65-98): validates the requested
columns, selects a figure from the dtypes of the first one or two columns, and
returns `(encoded_figure, None)` on success or `(None, message)` on failure. -/
def plot_chart (df : DF) (insight : Insight) : Option ChartFig × Option PyStr :=
  let cols := insight.columns.getD []
  if cols.isEmpty || cols.any (fun c => (findCol df c).isNone) then
    (none, some missingColsMsg)
  else
    let col1 := cols.headD []
    let d1 := (findCol df col1).getD (.nums [])
    match cols[1]? with
    | some col2 =>
      let d2 := (findCol df col2).getD (.nums [])
      if isObjCol d1 && isObjCol d2 then
        match d1, d2 with
        | .strs xs, .strs ys => (some (.groupedBar col1 col2 (pairCounts xs ys)), none)
        | _, _ => (none, some groupMeanErrMsg)
      else if !isObjCol d1 && !isObjCol d2 then
        match d1, d2 with
        | .nums xs, .nums ys => (some (.scatter col1 col2 (xs.zip ys)), none)
        | _, _ => (none, some groupMeanErrMsg)
      else
        match d1, d2 with
        | .strs ks, .nums vs => (some (.meanBar col1 col2 (groupMeanStr ks vs)), none)
        | .nums ks, .nums vs => (some (.meanBarNum col1 col2 (groupMeanNum ks vs)), none)
        | _, _ => (none, some groupMeanErrMsg)
    | none =>
      match d1 with
      | .strs vs => (some (.freqBar col1 (valueCounts vs)), none)
      | .nums vs => (some (.hist col1 vs), none)

/-! ## The orchestrator (`analyze`, `src/app.py` lines 100-153) -/

/-- The uploaded file as seen by the endpoint: only its name drives control flow. -/
structure FileInfo where
  filename : PyStr
deriving DecidableEq, Repr

/-- The effects `analyze` depends on, passed explicitly: the outcome of
`pd.read_csv` / `pd.read_excel` on the uploaded content, the outcome of
`df.describe(include='all').to_string()`, and the text returned by `query_llama3`
(which per `src/app.py` lines 30-35 is total: transport errors come back as an
error string, never an exception). -/
structure AnalyzeEnv where
  readCsv : Except PyStr DF
  readExcel : Except PyStr DF
  describeTable : DF → Except PyStr PyStr
  aiResponse : PyStr

/-- A JSON response body of the endpoint. -/
inductive Body where
  | errorOnly (error : PyStr)
  | errorRaw (error : PyStr) (raw : PyStr)
  | result (insights : List Insight) (chart : Option ChartFig) (error : Option PyStr)
deriving DecidableEq, Repr

/-- `src/app.py` line 104. -/
def noFileMsg : PyStr := "No file uploaded".toList

/-- `src/app.py` line 113. -/
def unsupportedMsg : PyStr := "Unsupported file type".toList

/-- `src/app.py` line 143. -/
def noInsightsMsg : PyStr := "No insights extracted".toList

/-- `src/app.py` lines 114-150: the body of `analyze` once a table is loaded.
An exception from `describe` is caught by the enclosing `try` (line 151) as a 500. -/
def analyzeWithDF (df : DF) (env : AnalyzeEnv) : Nat × Body :=
  match env.describeTable df with
  | .error e => (500, .errorOnly e)
  | .ok _summary =>
    let insights := parse_detailed_insights env.aiResponse
    if insights.isEmpty then (500, .errorRaw noInsightsMsg env.aiResponse)
    else
      let rendered := plot_chart df (insights.headD emptyInsight)
      (200, .result insights rendered.1 rendered.2)

/-- `analyze` (`src/app.py` lines 100-153): file presence check, case-sensitive
extension dispatch via `str.endswith`, load (a failure is caught by the `try` as a
500 with the exception's message), then `analyzeWithDF`.  `jsonify(...)` with no
explicit status is HTTP 200. -/
def analyze (file : Option FileInfo) (env : AnalyzeEnv) : Nat × Body :=
  match file with
  | none => (400, .errorOnly noFileMsg)
  | some f =>
    if endsWithStr f.filename ".csv".toList then
      match env.readCsv with
      | .error e => (500, .errorOnly e)
      | .ok df => analyzeWithDF df env
    else if endsWithStr f.filename ".xlsx".toList then
      match env.readExcel with
      | .error e => (500, .errorOnly e)
      | .ok df => analyzeWithDF df env
    else (400, .errorOnly unsupportedMsg)

/-! ## Auxiliary definitions used by the claim statements -/

/-- `insight.get("title")` is truthy: the title key is present and non-empty. -/
def hasNonEmptyTitle (i : Insight) : Bool :=
  match i.title with
  | some t => !t.isEmpty
  | none => false

/-- Joins lines with `"\n"` (inverse of `splitNl` on newline-free pieces). -/
def joinNl : List PyStr → PyStr
  | [] => []
  | [p] => p
  | p :: ps => p ++ '\n' :: joinNl ps

/-- Joins column names with `", "`, the labelled-line form of a `Columns:` line. -/
def joinComma : List PyStr → PyStr
  | [] => []
  | [c] => c
  | c :: cs => c ++ ',' :: ' ' :: joinComma cs

/-- The serialized `Title:` line of an insight, when the field is present. -/
def titleLines : Option PyStr → List PyStr
  | some t => ["Title: ".toList ++ t]
  | none => []

/-- The serialized `Explanation:` line of an insight, when the field is present. -/
def explLines : Option PyStr → List PyStr
  | some v => ["Explanation: ".toList ++ v]
  | none => []

/-- The serialized `Chart:` line of an insight, when the field is present. -/
def chartLines : Option PyStr → List PyStr
  | some v => ["Chart: ".toList ++ v]
  | none => []

/-- The serialized `Columns:` line of an insight, when the field is present. -/
def colsLines : Option (List PyStr) → List PyStr
  | some cs => ["Columns: ".toList ++ joinComma cs]
  | none => []

/-- The serialized `Tip:` line of an insight, when the field is present. -/
def tipLines : Option PyStr → List PyStr
  | some v => ["Tip: ".toList ++ v]
  | none => []

/-- Modelled from the spec: serialization of one parsed Insight back to its
labelled-line form — one `Title:` / `Explanation:` / `Chart:` / `Columns:` /
`Tip:` line per present field, in that order (the repository has no serializer;
this is the claim's "labeled-line form"). -/
def serializeInsight (i : Insight) : List PyStr :=
  titleLines i.title ++
  (explLines i.explanation ++
   (chartLines i.chart ++
    (colsLines i.columns ++ tipLines i.tip)))

/-- The labelled lines of a whole insight sequence, in order. -/
def serializeLines (l : List Insight) : List PyStr :=
  l.foldr (fun i acc => serializeInsight i ++ acc) []

/-- Modelled from the spec: serialization of a parsed Insight sequence, the
labelled lines of each insight joined by newlines. -/
def serializeInsights (l : List Insight) : PyStr :=
  joinNl (serializeLines l)

/-- No two adjacent `'*'` characters (no `"**"` occurrence). -/
def noDStar : PyStr → Bool
  | a :: b :: rest => !(a = '*' && b = '*') && noDStar (b :: rest)
  | _ => true

/-- A well-formed stored field value: already stripped and newline-free.
Every value `parse_detailed_insights` stores satisfies this. -/
def WFval (v : PyStr) : Prop := strip v = v ∧ '\n' ∉ v

/-- A well-formed insight record as produced by the parser: all present fields are
stripped and newline-free, the title additionally contains no `"**"`, and column
names are additionally non-empty and comma-free. -/
def GoodIns (i : Insight) : Prop :=
  (∀ t, i.title = some t → WFval t ∧ noDStar t = true) ∧
  (∀ v, i.explanation = some v → WFval v) ∧
  (∀ v, i.chart = some v → WFval v) ∧
  (∀ cs, i.columns = some cs → ∀ c ∈ cs, WFval c ∧ c ≠ [] ∧ ',' ∉ c) ∧
  (∀ v, i.tip = some v → WFval v)

/-- Applies `f` to the last element of a list (helper for reasoning about
`split` of a string with trailing characters). -/
def modifyLast (f : PyStr → PyStr) : List PyStr → List PyStr
  | [] => []
  | [p] => [f p]
  | p :: ps => p :: modifyLast f ps

/-- Concrete input of claim C8 (spec §8 example). -/
def c8Input : PyStr :=
  "Title: Revenue Growth\nExplanation: Sales up 20%\nChart: bar\nColumns: Region, Sales\nTip: Expand top regions".toList

/-! ## Claim theorems -/

/-- C8: parsing the five-labelled-line example yields exactly one Insight with
title "Revenue Growth", explanation "Sales up 20%", chart "bar",
columns ["Region", "Sales"] and tip "Expand top regions". -/
theorem c8_example_parse :
    parse_detailed_insights c8Input =
      [{ title := some "Revenue Growth".toList,
         explanation := some "Sales up 20%".toList,
         chart := some "bar".toList,
         columns := some ["Region".toList, "Sales".toList],
         tip := some "Expand top regions".toList }] := by
  decide

/-- C5: if the insight's columns list is empty or names a column absent from the
table, `plot_chart` returns `(None, "Missing or invalid columns")` without
attempting any render. -/
theorem c5_missing_columns (df : DF) (i : Insight)
    (h : i.columns.getD [] = [] ∨ ∃ c ∈ i.columns.getD [], findCol df c = none) :
    plot_chart df i = (none, some missingColsMsg) := by
  have hcond : ((i.columns.getD []).isEmpty
      || (i.columns.getD []).any (fun c => (findCol df c).isNone)) = true := by
    rcases h with h | ⟨c, hc, hnone⟩
    · simp [h]
    · simp only [Bool.or_eq_true, List.any_eq_true]
      exact Or.inr ⟨c, hc, by simp [hnone]⟩
  simp [plot_chart, hcond]

/-- C5 witness: a table with no columns and a request for column "Z". -/
theorem c5_missing_columns_witness :
    plot_chart [] ⟨none, none, none, some [['Z']], none⟩ = (none, some missingColsMsg) :=
  c5_missing_columns [] ⟨none, none, none, some [['Z']], none⟩
    (Or.inr ⟨['Z'], by decide, rfl⟩)

/-- C6: chart selection ignores the insight's `chart` hint — two insights with the
same `columns` field give the same render result on every table. -/
theorem c6_hint_independent (df : DF) (i j : Insight) (h : i.columns = j.columns) :
    plot_chart df i = plot_chart df j := by
  unfold plot_chart
  rw [h]

/-- C6 witness: same columns, different chart hints, same result. -/
theorem c6_hint_independent_witness :
    plot_chart [⟨['A'], .nums [1, 2]⟩]
        ⟨some ['t'], none, some "bar".toList, some [['A']], none⟩ =
      plot_chart [⟨['A'], .nums [1, 2]⟩]
        ⟨some ['t'], none, none, some [['A']], none⟩ :=
  c6_hint_independent _ _ _ rfl

/-- C7: `plot_chart` is total and exclusive — it returns either an encoded figure
with no error or no figure with an error message; a failure never propagates and
the error is set exactly when no image is produced. -/
theorem c7_render_exclusive (df : DF) (i : Insight) :
    (∃ g, plot_chart df i = (some g, none)) ∨
    (∃ e, plot_chart df i = (none, some e)) := by
  unfold plot_chart
  dsimp only
  repeat' split
  all_goals first
    | exact Or.inl ⟨_, rfl⟩
    | exact Or.inr ⟨_, rfl⟩

/-- Counterexample input for C3: first requested column numeric, second categorical. -/
def c3Df : DF := [⟨['A'], .nums [1, 2]⟩, ⟨['B'], .strs [['x'], ['y']]⟩]

/-- Counterexample insight for C3. -/
def c3Ins : Insight := ⟨some ['t'], none, none, some [['A'], ['B']], none⟩

/-- C3 counterexample: with mixed types in the order (numeric, categorical), the code
does NOT group by the categorical column and render a bar chart — it attempts
`df.groupby(col1)[col2].mean()` on the string column, which fails, and the caught
failure yields `(None, message)`. -/
theorem c3_counterexample :
    plot_chart c3Df c3Ins = (none, some groupMeanErrMsg) := by decide

/-- C3 amended: for two existing columns of mixed types, the renderer groups by the
FIRST column and means the SECOND: when the categorical column is first it renders
the bar chart of category vs mean that the spec describes, but in the reverse
order the mean of the categorical column fails and an error is returned. -/
theorem c3_mixed_groups_by_first (df : DF) (i : Insight) (c1 c2 : PyStr)
    (hc : i.columns = some [c1, c2]) :
    (∀ ks vs, findCol df c1 = some (.strs ks) → findCol df c2 = some (.nums vs) →
      plot_chart df i = (some (.meanBar c1 c2 (groupMeanStr ks vs)), none)) ∧
    (∀ ks vs, findCol df c1 = some (.nums ks) → findCol df c2 = some (.strs vs) →
      plot_chart df i = (none, some groupMeanErrMsg)) := by
  constructor <;> intro ks vs h1 h2 <;>
    simp [plot_chart, hc, h1, h2, isObjCol]

/-- C3 amended witness: categorical first column, numeric second. -/
theorem c3_mixed_groups_by_first_witness :
    plot_chart [⟨['B'], .strs [['x'], ['y'], ['x']]⟩, ⟨['A'], .nums [1, 2, 3]⟩]
        ⟨some ['t'], none, none, some [['B'], ['A']], none⟩ =
      (some (.meanBar ['B'] ['A'] (groupMeanStr [['x'], ['y'], ['x']] [1, 2, 3])), none) :=
  (c3_mixed_groups_by_first _ _ ['B'] ['A'] rfl).1 _ _ rfl rfl

/-- After a line is processed, `insights` is either unchanged or extended exactly by
the previous (non-empty) `current` record — the title is never inspected here. -/
theorem step_insights (st : PState) (raw : PyStr) :
    (step st raw).insights = st.insights ∨
    ((step st raw).insights = st.insights ++ [st.current] ∧ st.current.isEmpty = false) := by
  unfold step applyLine
  split
  · by_cases h : st.current.isEmpty = true
    · left; simp [h]
    · right
      rw [Bool.not_eq_true] at h
      simp [h]
  · split
    · exact Or.inl rfl
    · split
      · exact Or.inl rfl
      · split
        · exact Or.inl rfl
        · split
          · exact Or.inl rfl
          · exact Or.inl rfl

/-- A non-trigger line never touches `insights` and never changes the title. -/
theorem step_nontrigger (st : PState) (raw : PyStr) (h : isTrigger (strip raw) = false) :
    (step st raw).insights = st.insights ∧ (step st raw).current.title = st.current.title := by
  unfold step applyLine
  rw [h]
  simp only [Bool.false_eq_true, if_false]
  split
  · exact ⟨rfl, rfl⟩
  · split
    · exact ⟨rfl, rfl⟩
    · split
      · exact ⟨rfl, rfl⟩
      · split
        · exact ⟨rfl, rfl⟩
        · exact ⟨rfl, rfl⟩

/-- Loop invariant: every accumulated insight is a non-empty record. -/
theorem foldl_insights_nonempty (lines : List PyStr) :
    ∀ st : PState, (∀ i ∈ st.insights, i.isEmpty = false) →
      ∀ i ∈ (lines.foldl step st).insights, i.isEmpty = false := by
  induction lines with
  | nil => exact fun st h => h
  | cons l ls ih =>
    intro st h
    refine ih (step st l) ?_
    intro i hi
    rcases step_insights st l with heq | ⟨heq, hcur⟩
    · exact h i (heq ▸ hi)
    · rw [heq, List.mem_append] at hi
      rcases hi with hi | hi
      · exact h i hi
      · rw [List.mem_singleton] at hi
        exact hi ▸ hcur

/-- C1 counterexample: on `"Title:\nTitle: X"` the first emitted insight has an
empty title — a record finalized by a new-record trigger line is NOT dropped when
its title is empty, contradicting the claim. -/
theorem c1_counterexample :
    (parse_detailed_insights "Title:\nTitle: X".toList).all hasNonEmptyTitle = false := by
  decide

/-- The finalization of `parse_detailed_insights` in terms of the loop state:
the in-progress record is appended iff its title is present and non-empty. -/
theorem parse_detailed_eq (text : PyStr) :
    parse_detailed_insights text =
      if hasNonEmptyTitle (parseLoop text).current = true
      then (parseLoop text).insights ++ [(parseLoop text).current]
      else (parseLoop text).insights := by
  unfold parse_detailed_insights hasNonEmptyTitle
  dsimp only
  rcases h : (parseLoop text).current.title with _ | t
  · simp [h]
  · by_cases ht : t.isEmpty = true <;> simp [h, ht]

/-- C1 amended: every emitted insight has at least one field set, and an insight
with an empty or absent title can only have been appended by a new-record trigger
line inside the loop — the end-of-input finalization alone checks the title. -/
theorem c1_amended (text : PyStr) :
    (∀ i ∈ parse_detailed_insights text, i.isEmpty = false) ∧
    (∀ i ∈ parse_detailed_insights text, hasNonEmptyTitle i = false →
      i ∈ (parseLoop text).insights) := by
  have hloop : ∀ j ∈ (parseLoop text).insights, j.isEmpty = false :=
    foldl_insights_nonempty _ _ (by intro j hj; simp at hj)
  rw [parse_detailed_eq text]
  by_cases h : hasNonEmptyTitle (parseLoop text).current = true
  · rw [if_pos h]
    constructor
    · intro i hi
      rw [List.mem_append] at hi
      rcases hi with hi | hi
      · exact hloop i hi
      · rw [List.mem_singleton] at hi
        subst hi
        rw [hasNonEmptyTitle] at h
        rcases hT : (parseLoop text).current.title with _ | t
        · rw [hT] at h; simp at h
        · simp [Insight.isEmpty, hT]
    · intro i hi hfalse
      rw [List.mem_append] at hi
      rcases hi with hi | hi
      · exact hi
      · rw [List.mem_singleton] at hi
        subst hi
        rw [h] at hfalse
        simp at hfalse
  · rw [if_neg h]
    exact ⟨fun i hi => hloop i hi, fun i hi _ => hi⟩

/-- C1 amended witness: the title-less record emitted for
`"Explanation: hello\nTitle: X"` indeed comes from the loop. -/
theorem c1_amended_witness :
    (⟨none, some "hello".toList, none, none, none⟩ : Insight) ∈
      (parseLoop "Explanation: hello\nTitle: X".toList).insights :=
  (c1_amended "Explanation: hello\nTitle: X".toList).2
    ⟨none, some "hello".toList, none, none, none⟩ (by decide) (by decide)

/-- C2 counterexample: a line `"Explanation: hello"` arriving before any record
exists is NOT silently dropped — its content surfaces in a title-less record once
the following `"Title: X"` trigger appends the in-progress dict. -/
theorem c2_counterexample :
    parse_detailed_insights "Explanation: hello\nTitle: X".toList =
      [⟨none, some "hello".toList, none, none, none⟩,
       ⟨some ['X'], none, none, none, none⟩] := by
  decide

/-- Loop invariant used for C2: while no trigger line occurs, nothing is appended
and the in-progress record never acquires a title. -/
theorem foldl_no_trigger (lines : List PyStr) :
    ∀ st : PState, (∀ l ∈ lines, isTrigger (strip l) = false) →
      st.insights = [] → st.current.title = none →
      (lines.foldl step st).insights = [] ∧ (lines.foldl step st).current.title = none := by
  induction lines with
  | nil => exact fun st _ h1 h2 => ⟨h1, h2⟩
  | cons l ls ih =>
    intro st h h1 h2
    have hl : isTrigger (strip l) = false := h l (List.mem_cons_self l ls)
    obtain ⟨hi, ht⟩ := step_nontrigger st l hl
    exact ih (step st l) (fun m hm => h m (List.mem_cons_of_mem l hm))
      (hi.trans h1) (ht.trans h2)

/-- C2 amended: orphan field content is dropped only in the absence of a later
new-record trigger; in particular, an input none of whose (stripped) lines is a
new-record trigger parses to the empty sequence, so all its field content is
dropped. (The counterexample shows the content is kept, in a title-less record,
when a trigger line does follow.) -/
theorem c2_amended (text : PyStr)
    (h : ∀ l ∈ splitNl (strip text), isTrigger (strip l) = false) :
    parse_detailed_insights text = [] := by
  obtain ⟨h1, h2⟩ := foldl_no_trigger (splitNl (strip text)) ⟨[], emptyInsight⟩ h rfl rfl
  have hp : parseLoop text = (splitNl (strip text)).foldl step ⟨[], emptyInsight⟩ := rfl
  rw [parse_detailed_eq text, hasNonEmptyTitle, hp, h2, h1]
  simp

/-- C2 amended witness: `"Explanation: hello"` alone yields no insight at all. -/
theorem c2_amended_witness :
    parse_detailed_insights "Explanation: hello".toList = [] :=
  c2_amended "Explanation: hello".toList (by decide)

/-- `startsWith` agrees with list-prefix decomposition. -/
theorem startsWith_iff (p : PyStr) : ∀ s, startsWith s p = true ↔ ∃ t, s = p ++ t := by
  induction p with
  | nil =>
    intro s
    constructor
    · exact fun _ => ⟨s, rfl⟩
    · intro _
      cases s <;> rfl
  | cons q ps ih =>
    intro s
    cases s with
    | nil =>
      constructor
      · intro h; simp [startsWith] at h
      · rintro ⟨t, ht⟩; simp at ht
    | cons c cs =>
      constructor
      · intro h
        rw [startsWith, Bool.and_eq_true, beq_iff_eq] at h
        obtain ⟨t, ht⟩ := (ih cs).mp h.2
        exact ⟨t, by rw [h.1, ht]; rfl⟩
      · rintro ⟨t, ht⟩
        rw [List.cons_append, List.cons.injEq] at ht
        rw [startsWith, Bool.and_eq_true, beq_iff_eq]
        exact ⟨ht.1, (ih cs).mpr ⟨t, ht.2⟩⟩

/-- `endsWithStr` agrees with list-suffix decomposition. -/
theorem endsWithStr_iff (s p : PyStr) : endsWithStr s p = true ↔ ∃ t, s = t ++ p := by
  unfold endsWithStr
  rw [startsWith_iff]
  constructor
  · rintro ⟨t, ht⟩
    refine ⟨t.reverse, ?_⟩
    have := congrArg List.reverse ht
    rwa [List.reverse_reverse, List.reverse_append, List.reverse_reverse] at this
  · rintro ⟨t, ht⟩
    exact ⟨t.reverse, by rw [ht, List.reverse_append]⟩

/-- C10: the extension check is an exact, case-sensitive suffix match — a filename
ending in any upper- or mixed-case variant of ".csv" or ".xlsx" (a suffix whose
lower-casing is the extension but which is not already lower-case) is rejected
with the 400 "Unsupported file type" error before any load is attempted. -/
theorem c10_case_sensitive_extension (stem v : PyStr) (env : AnalyzeEnv)
    (hv : lower v = ".csv".toList ∨ lower v = ".xlsx".toList)
    (hne : v ≠ lower v) :
    analyze (some ⟨stem ++ v⟩) env = (400, .errorOnly unsupportedMsg) := by
  have hlen : (lower v).length = v.length := List.length_map v Char.toLower
  have h4 : (".csv".toList).length = 4 := rfl
  have h5 : (".xlsx".toList).length = 5 := rfl
  have h4x : ("xlsx".toList).length = 4 := rfl
  have hcsv : endsWithStr (stem ++ v) ".csv".toList = false := by
    rw [Bool.eq_false_iff]
    intro h
    obtain ⟨t, ht⟩ := (endsWithStr_iff _ _).mp h
    rcases hv with hv | hv
    · have hlv : v.length = 4 := by rw [← hlen, hv, h4]
      have hveq : v = ".csv".toList := by
        refine List.append_inj_right ht ?_
        have hl := congrArg List.length ht
        simp only [List.length_append] at hl
        omega
      exact hne (hveq.trans hv.symm)
    · have hlv : v.length = 5 := by rw [← hlen, hv, h5]
      cases v with
      | nil => simp at hlv
      | cons v0 v' =>
        have hv' : lower v' = "xlsx".toList := by
          have hc : Char.toLower v0 :: lower v' = '.' :: "xlsx".toList := hv
          exact (List.cons.injEq _ _ _ _ ▸ hc).2
        have hlv' : v'.length = 4 := by
          have hl := congrArg List.length hv'
          simp only [lower, List.length_map] at hl
          rw [hl, h4x]
        have ht' : (stem ++ [v0]) ++ v' = t ++ ".csv".toList := by
          rw [← ht]; simp
        have hveq : v' = ".csv".toList := by
          refine List.append_inj_right ht' ?_
          have hl := congrArg List.length ht'
          simp only [List.length_append, List.length_singleton] at hl ⊢
          omega
        rw [hveq] at hv'
        simp [lower] at hv'
  have hxlsx : endsWithStr (stem ++ v) ".xlsx".toList = false := by
    rw [Bool.eq_false_iff]
    intro h
    obtain ⟨t, ht⟩ := (endsWithStr_iff _ _).mp h
    rcases hv with hv | hv
    · have hlv : v.length = 4 := by rw [← hlen, hv, h4]
      have ht' : stem ++ v = (t ++ ['.']) ++ "xlsx".toList := by
        rw [ht]; simp
      have hveq : v = "xlsx".toList := by
        refine List.append_inj_right ht' ?_
        have hl := congrArg List.length ht'
        simp only [List.length_append, List.length_singleton] at hl ⊢
        omega
      rw [hveq] at hv
      simp [lower] at hv
    · have hlv : v.length = 5 := by rw [← hlen, hv, h5]
      have hveq : v = ".xlsx".toList := by
        refine List.append_inj_right ht ?_
        have hl := congrArg List.length ht
        simp only [List.length_append] at hl
        omega
      exact hne (hveq.trans hv.symm)
  have hcsv' : endsWithStr (stem ++ v) ['.', 'c', 's', 'v'] = false := hcsv
  have hxlsx' : endsWithStr (stem ++ v) ['.', 'x', 'l', 's', 'x'] = false := hxlsx
  simp [analyze, hcsv', hxlsx']

/-- C10 witness: uploading `"data.CSV"` is rejected as an unsupported file type. -/
theorem c10_case_sensitive_extension_witness :
    analyze (some ⟨"data".toList ++ ".CSV".toList⟩)
        ⟨.error [], .error [], fun _ => .error [], []⟩ =
      (400, .errorOnly unsupportedMsg) :=
  c10_case_sensitive_extension "data".toList ".CSV".toList
    ⟨.error [], .error [], fun _ => .error [], []⟩ (Or.inl (by decide)) (by decide)

/-- C9: once a table is loaded and summarized, if parsing yields at least one
insight the response is HTTP 200 even when rendering the first insight's chart
fails — the body carries the full insight sequence, `chart: null` and the
non-null error string; the render failure never becomes a non-200 status. -/
theorem c9_render_failure_is_200 (f : FileInfo) (env : AnalyzeEnv) (df : DF)
    (s e : PyStr)
    (hext : endsWithStr f.filename ".csv".toList = true)
    (hload : env.readCsv = .ok df)
    (hdesc : env.describeTable df = .ok s)
    (hne : parse_detailed_insights env.aiResponse ≠ [])
    (hrender : plot_chart df ((parse_detailed_insights env.aiResponse).headD emptyInsight) =
      (none, some e)) :
    analyze (some f) env =
      (200, .result (parse_detailed_insights env.aiResponse) none (some e)) := by
  have hne' : (parse_detailed_insights env.aiResponse).isEmpty = false := by
    rcases hp : parse_detailed_insights env.aiResponse with _ | ⟨i, l⟩
    · exact absurd hp hne
    · rfl
  unfold analyze
  dsimp only
  rw [hext, if_pos rfl, hload]
  unfold analyzeWithDF
  dsimp only
  rw [hdesc]
  dsimp only
  rw [hne', if_neg Bool.false_ne_true, hrender]

/-- C9 witness: a render failure (missing column "Z") still yields the 200 result
with the parsed insight, a null chart and the error message. -/
theorem c9_render_failure_is_200_witness :
    analyze (some ⟨"d.csv".toList⟩)
        ⟨.ok [⟨['A'], .nums [1]⟩], .error [], fun _ => .ok [], "Title: T\nColumns: Z".toList⟩ =
      (200, .result [⟨some ['T'], none, none, some [['Z']], none⟩] none
        (some missingColsMsg)) :=
  c9_render_failure_is_200 ⟨"d.csv".toList⟩
    ⟨.ok [⟨['A'], .nums [1]⟩], .error [], fun _ => .ok [], "Title: T\nColumns: Z".toList⟩
    [⟨['A'], .nums [1]⟩] [] missingColsMsg (by decide) rfl rfl (by decide) (by decide)

/-! ## Lemmas about `strip` -/

theorem lstrip_cons_ws {c : Char} (h : isPySpace c = true) (s : PyStr) :
    lstrip (c :: s) = lstrip s := by
  simp [lstrip, List.dropWhile_cons, h]

theorem lstrip_cons_nonws {c : Char} (h : isPySpace c = false) (s : PyStr) :
    lstrip (c :: s) = c :: s := by
  simp [lstrip, List.dropWhile_cons, h]

theorem lstrip_suffix (s : PyStr) : lstrip s <:+ s := List.dropWhile_suffix _

theorem lstrip_idem (s : PyStr) : lstrip (lstrip s) = lstrip s :=
  List.dropWhile_idempotent _ _

theorem rstrip_prefixOf (s : PyStr) : rstrip s <+: s := by
  rw [← List.reverse_suffix, rstrip, List.reverse_reverse]
  exact lstrip_suffix _

theorem rstrip_idem (s : PyStr) : rstrip (rstrip s) = rstrip s := by
  rw [rstrip, rstrip, List.reverse_reverse, lstrip_idem]

theorem head_nonws_of_lstrip_self {c : Char} {s' : PyStr} (h : lstrip (c :: s') = c :: s') :
    isPySpace c = false := by
  by_contra hws
  rw [Bool.not_eq_false] at hws
  rw [lstrip_cons_ws hws] at h
  have h1 := (lstrip_suffix s').length_le
  have h2 := congrArg List.length h
  simp only [List.length_cons] at h2
  omega

theorem of_strip_self {v : PyStr} (h : strip v = v) : lstrip v = v ∧ rstrip v = v := by
  have h1 : lstrip v = v := by
    refine (lstrip_suffix v).eq_of_length ?_
    have l1 : (rstrip (lstrip v)).length ≤ (lstrip v).length := (rstrip_prefixOf _).length_le
    have l2 : (rstrip (lstrip v)).length = v.length := by rw [← strip, h]
    have l3 := (lstrip_suffix v).length_le
    omega
  refine ⟨h1, ?_⟩
  rw [strip, h1] at h
  exact h

theorem lstrip_of_prefixOf {x y : PyStr} (hp : x <+: y) (hy : lstrip y = y) :
    lstrip x = x := by
  cases x with
  | nil => rfl
  | cons c x' =>
    obtain ⟨t, ht⟩ := hp
    rw [← ht, List.cons_append] at hy
    exact lstrip_cons_nonws (head_nonws_of_lstrip_self hy) x'

theorem strip_idem (s : PyStr) : strip (strip s) = strip s := by
  have hfix : lstrip (strip s) = strip s :=
    lstrip_of_prefixOf (rstrip_prefixOf (lstrip s)) (lstrip_idem s)
  rw [strip, hfix, strip, rstrip_idem]

theorem strip_cons_ws {c : Char} (h : isPySpace c = true) (s : PyStr) :
    strip (c :: s) = strip s := by
  rw [strip, lstrip_cons_ws h, ← strip]

theorem rstrip_append_ws {c : Char} (h : isPySpace c = true) (y : PyStr) :
    rstrip (y ++ [c]) = rstrip y := by
  rw [rstrip, List.reverse_append, List.reverse_singleton, List.singleton_append,
    lstrip_cons_ws h, ← rstrip]

theorem strip_append_ws {c : Char} (h : isPySpace c = true) (y : PyStr) :
    strip (y ++ [c]) = strip y := by
  rw [strip, lstrip, List.dropWhile_append]
  by_cases hy : (y.dropWhile isPySpace).isEmpty
  · rw [if_pos hy]
    rw [List.isEmpty_iff] at hy
    have : lstrip [c] = [] := by rw [lstrip_cons_ws h]; rfl
    rw [show List.dropWhile isPySpace [c] = ([] : PyStr) from this]
    rw [strip, lstrip, hy]
  · rw [if_neg hy]
    rw [show y.dropWhile isPySpace = lstrip y from rfl, rstrip_append_ws h, strip]

theorem head_nonws_of_rstrip_self {y : PyStr} (h : rstrip y = y) (hne : y ≠ []) :
    ∃ b y', y.reverse = b :: y' ∧ isPySpace b = false := by
  have hrev : lstrip y.reverse = y.reverse := by
    have := congrArg List.reverse h
    rw [rstrip, List.reverse_reverse] at this
    exact this
  rcases hy : y.reverse with _ | ⟨b, y'⟩
  · exact absurd (by simpa using congrArg List.reverse hy) hne
  · rw [hy] at hrev
    exact ⟨b, y', rfl, head_nonws_of_lstrip_self hrev⟩

/-- `strip` fixes the concatenation of a left part with non-whitespace head and a
right part with non-whitespace last character. -/
theorem strip_append_self {x y : PyStr} (hx : lstrip x = x) (hy : rstrip y = y)
    (hxne : x ≠ []) (hyne : y ≠ []) : strip (x ++ y) = x ++ y := by
  rcases x with _ | ⟨a, x'⟩
  · exact absurd rfl hxne
  have ha : isPySpace a = false := head_nonws_of_lstrip_self hx
  rw [strip, List.cons_append, lstrip_cons_nonws ha, ← List.cons_append]
  obtain ⟨b, y', hby, hb⟩ := head_nonws_of_rstrip_self hy hyne
  rw [rstrip, List.reverse_append, hby, List.cons_append, lstrip_cons_nonws hb,
    ← List.cons_append, ← hby, ← List.reverse_append, List.reverse_reverse]

/-! ## Lemmas about `removeDStars` and `noDStar` -/

theorem removeDStars_singleton (c : Char) : removeDStars [c] = [c] := by
  by_cases hc : c = '*'
  · subst hc; rfl
  · simp [removeDStars, hc]

theorem removeDStars_cons_notdouble {c : Char} {rest : PyStr}
    (h : ∀ r, c = '*' → rest = '*' :: r → False) :
    removeDStars (c :: rest) = c :: removeDStars rest := by
  rcases rest with _ | ⟨d, r'⟩
  · exact removeDStars_singleton c
  · by_cases hc : c = '*'
    · by_cases hd : d = '*'
      · exact absurd (h r' hc (by rw [hd])) (by simp)
      · subst hc
        simp [removeDStars, hd]
    · simp [removeDStars, hc]

/-- `line.replace("**", "")` leaves no `"**"` occurrence behind. -/
theorem noDStar_removeDStars (s : PyStr) : noDStar (removeDStars s) = true := by
  induction s using removeDStars.induct with
  | case1 rest ih => rw [removeDStars]; exact ih
  | case2 c rest hne ih =>
    rw [removeDStars_cons_notdouble hne]
    by_cases hc : c = '*'
    · subst hc
      rcases rest with _ | ⟨d, r'⟩
      · rfl
      · have hd : d ≠ '*' := fun hd => hne r' rfl (by rw [hd])
        have heq : removeDStars (d :: r') = d :: removeDStars r' :=
          removeDStars_cons_notdouble (fun r h1 _ => hd h1)
        rw [heq] at ih ⊢
        rw [noDStar]
        simp only [Bool.and_eq_true, Bool.not_eq_true']
        exact ⟨by simp [hd], ih⟩
    · rcases hrw : removeDStars rest with _ | ⟨e, l'⟩
      · rfl
      · rw [hrw] at ih
        rw [noDStar]
        simp only [Bool.and_eq_true, Bool.not_eq_true']
        exact ⟨by simp [hc], ih⟩
  | case3 => rfl

/-- `replace("**", "")` is the identity on strings without `"**"`. -/
theorem removeDStars_eq_self {s : PyStr} (h : noDStar s = true) : removeDStars s = s := by
  induction s with
  | nil => rfl
  | cons c rest ih =>
    rcases rest with _ | ⟨d, r'⟩
    · exact removeDStars_singleton c
    · rw [noDStar, Bool.and_eq_true, Bool.not_eq_true'] at h
      have hnd : ∀ r, c = '*' → d :: r' = '*' :: r → False := by
        intro r h1 h2
        injection h2 with h3 _
        rw [h1, h3] at h
        simp at h
      rw [removeDStars_cons_notdouble hnd, ih h.2]

theorem noDStar_cons {c : Char} {l : PyStr} (h : noDStar (c :: l) = true) :
    noDStar l = true := by
  rcases l with _ | ⟨d, l'⟩
  · rfl
  · rw [noDStar, Bool.and_eq_true] at h
    exact h.2

theorem noDStar_append_right {x y : PyStr} (h : noDStar (x ++ y) = true) :
    noDStar y = true := by
  induction x with
  | nil => exact h
  | cons c x' ih => exact ih (noDStar_cons h)

theorem noDStar_append_left {x y : PyStr} (h : noDStar (x ++ y) = true) :
    noDStar x = true := by
  induction x with
  | nil => rfl
  | cons c x' ih =>
    rcases x' with _ | ⟨d, x''⟩
    · rfl
    · rw [List.cons_append, List.cons_append, noDStar, Bool.and_eq_true] at h
      rw [noDStar, Bool.and_eq_true]
      exact ⟨h.1, ih (by rw [List.cons_append]; exact h.2)⟩

theorem noDStar_of_suffix {x s : PyStr} (hs : x <:+ s) (h : noDStar s = true) :
    noDStar x = true := by
  obtain ⟨t, ht⟩ := hs
  exact noDStar_append_right (ht ▸ h)

theorem noDStar_of_prefixOf {x s : PyStr} (hs : x <+: s) (h : noDStar s = true) :
    noDStar x = true := by
  obtain ⟨t, ht⟩ := hs
  exact noDStar_append_left (ht ▸ h)

/-- `afterColon` yields a suffix of its argument. -/
theorem afterColon_suffix (s : PyStr) : afterColon s <:+ s := by
  unfold afterColon
  rcases hd : s.dropWhile (fun c => !(c == ':')) with _ | ⟨c, rest⟩
  · exact List.suffix_rfl
  · have h1 : c :: rest <:+ s := hd ▸ List.dropWhile_suffix _
    exact (List.suffix_cons c rest).trans h1

theorem noDStar_strip {s : PyStr} (h : noDStar s = true) : noDStar (strip s) = true :=
  noDStar_of_prefixOf (rstrip_prefixOf _) (noDStar_of_suffix (lstrip_suffix _) h)

/-- The title stored by a trigger line contains no `"**"`. -/
theorem noDStar_title (line : PyStr) :
    noDStar (strip (afterColon (removeDStars line))) = true :=
  noDStar_strip (noDStar_of_suffix (afterColon_suffix _) (noDStar_removeDStars line))

/-! ## Lemmas about `splitNl`, `splitComma` and `joinNl` -/

theorem splitNl_cons_other {c : Char} (hc : c ≠ '\n') (rest : PyStr) :
    splitNl (c :: rest) =
      (c :: (splitNl rest).headD []) :: (splitNl rest).tail := by
  rw [splitNl.eq_3 c rest hc]
  rcases hr : splitNl rest with _ | ⟨l, ls⟩
  · rfl
  · rfl

theorem splitNl_ne_nil (s : PyStr) : splitNl s ≠ [] := by
  induction s with
  | nil => simp [splitNl]
  | cons c rest ih =>
    by_cases hc : c = '\n'
    · subst hc; simp [splitNl.eq_2]
    · rw [splitNl_cons_other hc]
      simp

theorem splitNl_no_nl (s : PyStr) : ∀ p ∈ splitNl s, '\n' ∉ p := by
  induction s with
  | nil => intro p hp; simp [splitNl] at hp; simp [hp]
  | cons c rest ih =>
    by_cases hc : c = '\n'
    · subst hc
      rw [splitNl.eq_2]
      intro p hp
      rcases List.mem_cons.mp hp with hp | hp
      · simp [hp]
      · exact ih p hp
    · rw [splitNl_cons_other hc]
      intro p hp
      rcases List.mem_cons.mp hp with hp | hp
      · subst hp
        rcases hr : splitNl rest with _ | ⟨l, ls⟩
        · exact absurd hr (splitNl_ne_nil rest)
        · have hl : '\n' ∉ l := ih l (by rw [hr]; exact List.mem_cons_self l ls)
          simp only [List.headD_cons, List.mem_cons]
          rintro (h | h)
          · exact hc h.symm
          · exact hl h
      · rcases hr : splitNl rest with _ | ⟨l, ls⟩
        · exact absurd hr (splitNl_ne_nil rest)
        · rw [hr] at hp
          exact ih p (by rw [hr]; exact List.mem_cons_of_mem l hp)

theorem splitNl_append_nl (ys : PyStr) : splitNl (ys ++ ['\n']) = splitNl ys ++ [[]] := by
  induction ys with
  | nil => rfl
  | cons c ys' ih =>
    by_cases hc : c = '\n'
    · subst hc
      rw [List.cons_append, splitNl.eq_2, splitNl.eq_2, ih]
      rfl
    · rw [List.cons_append, splitNl_cons_other hc, splitNl_cons_other hc, ih]
      have hne := splitNl_ne_nil ys'
      rcases hr : splitNl ys' with _ | ⟨l, ls⟩
      · exact absurd hr hne
      · simp

theorem splitNl_append_other {c : Char} (hc : c ≠ '\n') (ys : PyStr) :
    splitNl (ys ++ [c]) = modifyLast (· ++ [c]) (splitNl ys) := by
  induction ys with
  | nil => simp [splitNl.eq_1, splitNl_cons_other hc, modifyLast]
  | cons d ys' ih =>
    by_cases hd : d = '\n'
    · subst hd
      rw [List.cons_append, splitNl.eq_2, splitNl.eq_2, ih]
      have hne := splitNl_ne_nil ys'
      rcases hr : splitNl ys' with _ | ⟨l, ls⟩
      · exact absurd hr hne
      · rfl
    · rw [List.cons_append, splitNl_cons_other hd, splitNl_cons_other hd, ih]
      have hne := splitNl_ne_nil ys'
      rcases hr : splitNl ys' with _ | ⟨l, ls⟩
      · exact absurd hr hne
      · rcases ls with _ | ⟨m, ms⟩
        · simp [modifyLast]
        · simp [modifyLast]

theorem splitNl_single {p : PyStr} (hp : '\n' ∉ p) : splitNl p = [p] := by
  induction p with
  | nil => rfl
  | cons c p' ih =>
    have hc : c ≠ '\n' := fun h => hp (h ▸ List.mem_cons_self c p')
    have hp' : '\n' ∉ p' := fun h => hp (List.mem_cons_of_mem c h)
    rw [splitNl_cons_other hc, ih hp']
    rfl

theorem splitNl_glue {p : PyStr} (hp : '\n' ∉ p) (rest : PyStr) :
    splitNl (p ++ '\n' :: rest) = p :: splitNl rest := by
  induction p with
  | nil => simp [splitNl.eq_2]
  | cons c p' ih =>
    have hc : c ≠ '\n' := fun h => hp (h ▸ List.mem_cons_self c p')
    have hp' : '\n' ∉ p' := fun h => hp (List.mem_cons_of_mem c h)
    rw [List.cons_append, splitNl_cons_other hc, ih hp']
    rfl

theorem splitNl_joinNl : ∀ ls : List PyStr, ls ≠ [] → (∀ p ∈ ls, '\n' ∉ p) →
    splitNl (joinNl ls) = ls := by
  intro ls
  induction ls with
  | nil => intro h; exact absurd rfl h
  | cons p ps ih =>
    intro _ hnl
    rcases ps with _ | ⟨q, ps'⟩
    · rw [joinNl]
      exact splitNl_single (hnl p (List.mem_cons_self p []))
    · have hj : joinNl (p :: q :: ps') = p ++ '\n' :: joinNl (q :: ps') := rfl
      rw [hj, splitNl_glue (hnl p (List.mem_cons_self p _))]
      rw [ih (by simp) (fun r hr => hnl r (List.mem_cons_of_mem p hr))]

theorem splitComma_cons_other {c : Char} (hc : c ≠ ',') (rest : PyStr) :
    splitComma (c :: rest) =
      (c :: (splitComma rest).headD []) :: (splitComma rest).tail := by
  rw [splitComma.eq_3 c rest hc]
  rcases hr : splitComma rest with _ | ⟨l, ls⟩
  · rfl
  · rfl

theorem splitComma_ne_nil (s : PyStr) : splitComma s ≠ [] := by
  induction s with
  | nil => simp [splitComma]
  | cons c rest ih =>
    by_cases hc : c = ','
    · subst hc; simp [splitComma.eq_2]
    · rw [splitComma_cons_other hc]
      simp

theorem splitComma_no_comma (s : PyStr) : ∀ p ∈ splitComma s, ',' ∉ p := by
  induction s with
  | nil => intro p hp; simp [splitComma] at hp; simp [hp]
  | cons c rest ih =>
    by_cases hc : c = ','
    · subst hc
      rw [splitComma.eq_2]
      intro p hp
      rcases List.mem_cons.mp hp with hp | hp
      · simp [hp]
      · exact ih p hp
    · rw [splitComma_cons_other hc]
      intro p hp
      rcases List.mem_cons.mp hp with hp | hp
      · subst hp
        rcases hr : splitComma rest with _ | ⟨l, ls⟩
        · exact absurd hr (splitComma_ne_nil rest)
        · have hl : ',' ∉ l := ih l (by rw [hr]; exact List.mem_cons_self l ls)
          simp only [List.headD_cons, List.mem_cons]
          rintro (h | h)
          · exact hc h.symm
          · exact hl h
      · rcases hr : splitComma rest with _ | ⟨l, ls⟩
        · exact absurd hr (splitComma_ne_nil rest)
        · rw [hr] at hp
          exact ih p (by rw [hr]; exact List.mem_cons_of_mem l hp)

theorem splitComma_subset (s : PyStr) : ∀ p ∈ splitComma s, ∀ a ∈ p, a ∈ s := by
  induction s with
  | nil => intro p hp; simp [splitComma] at hp; simp [hp]
  | cons c rest ih =>
    by_cases hc : c = ','
    · subst hc
      rw [splitComma.eq_2]
      intro p hp a ha
      rcases List.mem_cons.mp hp with hp | hp
      · subst hp; simp at ha
      · exact List.mem_cons_of_mem _ (ih p hp a ha)
    · rw [splitComma_cons_other hc]
      intro p hp a ha
      rcases hr : splitComma rest with _ | ⟨l, ls⟩
      · exact absurd hr (splitComma_ne_nil rest)
      · rw [hr] at hp
        simp only [List.headD_cons, List.tail_cons] at hp
        rcases List.mem_cons.mp hp with hp | hp
        · subst hp
          rcases List.mem_cons.mp ha with ha | ha
          · exact ha ▸ List.mem_cons_self a rest
          · exact List.mem_cons_of_mem _
              (ih l (by rw [hr]; exact List.mem_cons_self l ls) a ha)
        · exact List.mem_cons_of_mem _
            (ih p (by rw [hr]; exact List.mem_cons_of_mem l hp) a ha)

theorem splitComma_single {p : PyStr} (hp : ',' ∉ p) : splitComma p = [p] := by
  induction p with
  | nil => rfl
  | cons c p' ih =>
    have hc : c ≠ ',' := fun h => hp (h ▸ List.mem_cons_self c p')
    have hp' : ',' ∉ p' := fun h => hp (List.mem_cons_of_mem c h)
    rw [splitComma_cons_other hc, ih hp']
    rfl

theorem splitComma_glue {p : PyStr} (hp : ',' ∉ p) (rest : PyStr) :
    splitComma (p ++ ',' :: rest) = p :: splitComma rest := by
  induction p with
  | nil => simp [splitComma.eq_2]
  | cons c p' ih =>
    have hc : c ≠ ',' := fun h => hp (h ▸ List.mem_cons_self c p')
    have hp' : ',' ∉ p' := fun h => hp (List.mem_cons_of_mem c h)
    rw [List.cons_append, splitComma_cons_other hc, ih hp']
    rfl

/-! ## The parser loop is invariant under the outer `text.strip()` -/

theorem step_nil (st : PState) : step st [] = st := rfl

theorem step_strip (st : PState) (raw : PyStr) : step st (strip raw) = step st raw := by
  unfold step
  rw [strip_idem]

theorem step_cons_ws {c : Char} (h : isPySpace c = true) (st : PState) (l : PyStr) :
    step st (c :: l) = step st l := by
  unfold step
  rw [strip_cons_ws h]

theorem step_append_ws {c : Char} (h : isPySpace c = true) (st : PState) (l : PyStr) :
    step st (l ++ [c]) = step st l := by
  unfold step
  rw [strip_append_ws h]

theorem foldl_step_modifyLast {c : Char} (h : isPySpace c = true) :
    ∀ (ls : List PyStr) (st : PState),
      ls.foldl step st = (modifyLast (· ++ [c]) ls).foldl step st := by
  intro ls
  induction ls with
  | nil => intro st; rfl
  | cons p ps ih =>
    intro st
    rcases ps with _ | ⟨q, ps'⟩
    · show step st p = List.foldl step st [p ++ [c]]
      rw [List.foldl_cons, List.foldl_nil, step_append_ws h]
    · show List.foldl step (step st p) (q :: ps') =
        List.foldl step st (p :: modifyLast (· ++ [c]) (q :: ps'))
      rw [List.foldl_cons]
      exact ih (step st p)

theorem foldl_step_lstrip : ∀ (text : PyStr) (st : PState),
    (splitNl (lstrip text)).foldl step st = (splitNl text).foldl step st := by
  intro text
  induction text with
  | nil => intro st; rfl
  | cons c rest ih =>
    intro st
    by_cases hws : isPySpace c = true
    · rw [lstrip_cons_ws hws]
      by_cases hc : c = '\n'
      · subst hc
        rw [splitNl.eq_2, List.foldl_cons, step_nil]
        exact ih st
      · rw [splitNl_cons_other hc]
        have hne := splitNl_ne_nil rest
        rcases hr : splitNl rest with _ | ⟨l, ls⟩
        · exact absurd hr hne
        · rw [List.headD_cons, List.tail_cons, List.foldl_cons, step_cons_ws hws]
          rw [ih st, hr, List.foldl_cons]
    · rw [Bool.not_eq_true] at hws
      rw [lstrip_cons_nonws hws]

theorem foldl_step_rstrip : ∀ (text : PyStr) (st : PState),
    (splitNl (rstrip text)).foldl step st = (splitNl text).foldl step st := by
  intro text
  induction text using List.reverseRecOn with
  | nil => intro st; rfl
  | append_singleton ys c ih =>
    intro st
    by_cases hws : isPySpace c = true
    · rw [rstrip_append_ws hws]
      by_cases hc : c = '\n'
      · subst hc
        rw [splitNl_append_nl, List.foldl_append, List.foldl_cons, List.foldl_nil, step_nil]
        exact ih st
      · rw [splitNl_append_other hc, ← foldl_step_modifyLast hws]
        exact ih st
    · rw [Bool.not_eq_true] at hws
      have hres : rstrip (ys ++ [c]) = ys ++ [c] := by
        rw [rstrip, List.reverse_append, List.reverse_singleton, List.singleton_append,
          lstrip_cons_nonws hws]
        simp
      rw [hres]

/-- The outer `text.strip()` never changes what the loop computes: all it can do is
delete all-whitespace first/last lines (no-ops) and trim the first/last line, which
the per-line `line.strip()` does anyway. -/
theorem foldl_step_strip (text : PyStr) (st : PState) :
    (splitNl (strip text)).foldl step st = (splitNl text).foldl step st := by
  rw [strip, foldl_step_rstrip, foldl_step_lstrip]

/-! ## How the parser consumes one serialized labelled line -/

theorem rstrip_append_self {x y : PyStr} (hy : rstrip y = y) (hyne : y ≠ []) :
    rstrip (x ++ y) = x ++ y := by
  obtain ⟨b, y', hby, hb⟩ := head_nonws_of_rstrip_self hy hyne
  rw [rstrip, List.reverse_append, hby, List.cons_append, lstrip_cons_nonws hb,
    ← List.cons_append, ← hby, ← List.reverse_append, List.reverse_reverse]

theorem trig_title (v : PyStr) : isTrigger ("Title: ".toList ++ v) = true := rfl

theorem trig_expl (v : PyStr) : isTrigger ("Explanation: ".toList ++ v) = false := rfl

theorem trig_chart (v : PyStr) : isTrigger ("Chart: ".toList ++ v) = false := rfl

theorem trig_cols (v : PyStr) : isTrigger ("Columns: ".toList ++ v) = false := rfl

theorem trig_tip (v : PyStr) : isTrigger ("Tip: ".toList ++ v) = false := rfl

theorem swE_expl (v : PyStr) :
    startsWith (lower ("Explanation: ".toList ++ v))
      ['e','x','p','l','a','n','a','t','i','o','n',':'] = true := rfl

theorem swE_chart (v : PyStr) :
    startsWith (lower ("Chart: ".toList ++ v))
      ['e','x','p','l','a','n','a','t','i','o','n',':'] = false := rfl

theorem swC_chart (v : PyStr) :
    startsWith (lower ("Chart: ".toList ++ v)) ['c','h','a','r','t',':'] = true := rfl

theorem swE_cols (v : PyStr) :
    startsWith (lower ("Columns: ".toList ++ v))
      ['e','x','p','l','a','n','a','t','i','o','n',':'] = false := rfl

theorem swC_cols (v : PyStr) :
    startsWith (lower ("Columns: ".toList ++ v)) ['c','h','a','r','t',':'] = false := rfl

theorem swCo_cols (v : PyStr) :
    startsWith (lower ("Columns: ".toList ++ v))
      ['c','o','l','u','m','n','s',':'] = true := rfl

theorem swE_tip (v : PyStr) :
    startsWith (lower ("Tip: ".toList ++ v))
      ['e','x','p','l','a','n','a','t','i','o','n',':'] = false := rfl

theorem swC_tip (v : PyStr) :
    startsWith (lower ("Tip: ".toList ++ v)) ['c','h','a','r','t',':'] = false := rfl

theorem swCo_tip (v : PyStr) :
    startsWith (lower ("Tip: ".toList ++ v)) ['c','o','l','u','m','n','s',':'] = false := rfl

theorem swT_tip (v : PyStr) :
    startsWith (lower ("Tip: ".toList ++ v)) ['t','i','p',':'] = true := rfl

theorem ac_title (v : PyStr) : afterColon ("Title: ".toList ++ v) = ' ' :: v := rfl

theorem ac_expl (v : PyStr) : afterColon ("Explanation: ".toList ++ v) = ' ' :: v := rfl

theorem ac_chart (v : PyStr) : afterColon ("Chart: ".toList ++ v) = ' ' :: v := rfl

theorem ac_cols (v : PyStr) : afterColon ("Columns: ".toList ++ v) = ' ' :: v := rfl

theorem ac_tip (v : PyStr) : afterColon ("Tip: ".toList ++ v) = ' ' :: v := rfl

theorem rds_title (t : PyStr) :
    removeDStars ("Title: ".toList ++ t) = "Title: ".toList ++ removeDStars t := rfl

theorem step_title_line (st : PState) {t : PyStr} (ht : strip t = t)
    (hd : noDStar t = true) :
    step st ("Title: ".toList ++ t) =
      ⟨if st.current.isEmpty then st.insights else st.insights ++ [st.current],
       ⟨some t, none, none, none, none⟩⟩ := by
  rcases t with _ | ⟨c, t'⟩
  · rfl
  · obtain ⟨h1, h2⟩ := of_strip_self ht
    have hs : strip ("Title: ".toList ++ (c :: t')) = "Title: ".toList ++ (c :: t') :=
      strip_append_self (by decide) h2 (by decide) (by simp)
    unfold step
    rw [hs]
    unfold applyLine
    simp only [trig_title, if_true]
    unfold mkRecord
    rw [rds_title, removeDStars_eq_self hd, ac_title, strip_cons_ws (by decide), ht]

theorem step_expl_line (st : PState) {v : PyStr} (hv : strip v = v) :
    step st ("Explanation: ".toList ++ v) =
      ⟨st.insights, { st.current with explanation := some v }⟩ := by
  rcases v with _ | ⟨c, v'⟩
  · rfl
  · obtain ⟨h1, h2⟩ := of_strip_self hv
    have hs : strip ("Explanation: ".toList ++ (c :: v')) =
        "Explanation: ".toList ++ (c :: v') :=
      strip_append_self (by decide) h2 (by decide) (by simp)
    unfold step
    rw [hs]
    unfold applyLine
    simp only [trig_expl, swE_expl, Bool.false_eq_true, if_false, if_true]
    rw [ac_expl, strip_cons_ws (by decide), hv]

theorem step_chart_line (st : PState) {v : PyStr} (hv : strip v = v) :
    step st ("Chart: ".toList ++ v) =
      ⟨st.insights, { st.current with chart := some v }⟩ := by
  rcases v with _ | ⟨c, v'⟩
  · rfl
  · obtain ⟨h1, h2⟩ := of_strip_self hv
    have hs : strip ("Chart: ".toList ++ (c :: v')) = "Chart: ".toList ++ (c :: v') :=
      strip_append_self (by decide) h2 (by decide) (by simp)
    unfold step
    rw [hs]
    unfold applyLine
    simp only [trig_chart, swE_chart, swC_chart, Bool.false_eq_true, if_false, if_true]
    rw [ac_chart, strip_cons_ws (by decide), hv]

theorem step_tip_line (st : PState) {v : PyStr} (hv : strip v = v) :
    step st ("Tip: ".toList ++ v) =
      ⟨st.insights, { st.current with tip := some v }⟩ := by
  rcases v with _ | ⟨c, v'⟩
  · rfl
  · obtain ⟨h1, h2⟩ := of_strip_self hv
    have hs : strip ("Tip: ".toList ++ (c :: v')) = "Tip: ".toList ++ (c :: v') :=
      strip_append_self (by decide) h2 (by decide) (by simp)
    unfold step
    rw [hs]
    unfold applyLine
    simp only [trig_tip, swE_tip, swC_tip, swCo_tip, swT_tip, Bool.false_eq_true,
      if_false, if_true]
    rw [ac_tip, strip_cons_ws (by decide), hv]

theorem lstrip_append_self {x y : PyStr} (hx : lstrip x = x) (hxne : x ≠ []) :
    lstrip (x ++ y) = x ++ y := by
  rcases x with _ | ⟨a, x'⟩
  · exact absurd rfl hxne
  · rw [List.cons_append, lstrip_cons_nonws (head_nonws_of_lstrip_self hx)]

theorem joinComma_fixed {cs : List PyStr}
    (hcs : ∀ c ∈ cs, strip c = c ∧ c ≠ [] ∧ ',' ∉ c) (hne : cs ≠ []) :
    lstrip (joinComma cs) = joinComma cs ∧ rstrip (joinComma cs) = joinComma cs ∧
      joinComma cs ≠ [] := by
  induction cs with
  | nil => exact absurd rfl hne
  | cons c cs' ih =>
    obtain ⟨hc1, hc2, _⟩ := hcs c (List.mem_cons_self c cs')
    obtain ⟨hcl, hcr⟩ := of_strip_self hc1
    rcases cs' with _ | ⟨q, cs''⟩
    · exact ⟨hcl, hcr, hc2⟩
    · obtain ⟨ihl, ihr, ihne⟩ :=
        ih (fun x hx => hcs x (List.mem_cons_of_mem c hx)) (by simp)
      have hj : joinComma (c :: q :: cs'') = c ++ ',' :: ' ' :: joinComma (q :: cs'') := rfl
      refine ⟨?_, ?_, ?_⟩
      · rw [hj]
        exact lstrip_append_self hcl hc2
      · rw [hj, show (c ++ ',' :: ' ' :: joinComma (q :: cs'')) =
          ((c ++ [','] ++ [' ']) ++ joinComma (q :: cs'')) by simp]
        rw [rstrip_append_self ihr ihne]
      · rw [hj]
        intro hcontra
        exact hc2 (List.append_eq_nil.mp hcontra).1

theorem map_strip_splitComma_cons_space (s : PyStr) :
    (splitComma (' ' :: s)).map strip = (splitComma s).map strip := by
  rw [splitComma_cons_other (by decide)]
  rcases hr : splitComma s with _ | ⟨l, ls⟩
  · exact absurd hr (splitComma_ne_nil s)
  · simp only [List.headD_cons, List.tail_cons, List.map_cons]
    rw [strip_cons_ws (by decide)]

theorem splitComma_joinComma {cs : List PyStr}
    (hcs : ∀ c ∈ cs, strip c = c ∧ c ≠ [] ∧ ',' ∉ c) :
    ((splitComma (joinComma cs)).map strip).filter (fun c => !c.isEmpty) = cs := by
  induction cs with
  | nil => rfl
  | cons c cs' ih =>
    obtain ⟨hc1, hc2, hc3⟩ := hcs c (List.mem_cons_self c cs')
    have hcE : c.isEmpty = false := by
      rcases c with _ | ⟨a, c''⟩
      · exact absurd rfl hc2
      · rfl
    rcases cs' with _ | ⟨q, cs''⟩
    · rw [show joinComma [c] = c from rfl, splitComma_single hc3]
      simp [hc1, hcE]
    · have hj : joinComma (c :: q :: cs'') = c ++ ',' :: ' ' :: joinComma (q :: cs'') := rfl
      rw [hj, splitComma_glue hc3, List.map_cons, hc1,
        List.filter_cons_of_pos (by rw [hcE]; rfl)]
      rw [map_strip_splitComma_cons_space]
      rw [ih (fun x hx => hcs x (List.mem_cons_of_mem c hx))]

theorem step_cols_line (st : PState) {cs : List PyStr}
    (hcs : ∀ c ∈ cs, strip c = c ∧ c ≠ [] ∧ ',' ∉ c) :
    step st ("Columns: ".toList ++ joinComma cs) =
      ⟨st.insights, { st.current with columns := some cs }⟩ := by
  rcases hcase : cs with _ | ⟨c0, cs0⟩
  · rfl
  · rw [← hcase]
    have hne : cs ≠ [] := by rw [hcase]; simp
    obtain ⟨hjl, hjr, hjne⟩ := joinComma_fixed hcs hne
    have hjs : strip (joinComma cs) = joinComma cs := by
      rw [strip, hjl, hjr]
    have hs : strip ("Columns: ".toList ++ joinComma cs) =
        "Columns: ".toList ++ joinComma cs :=
      strip_append_self (by decide) hjr (by decide) hjne
    unfold step
    rw [hs]
    unfold applyLine
    simp only [trig_cols, swE_cols, swC_cols, swCo_cols, Bool.false_eq_true,
      if_false, if_true]
    rw [ac_cols, strip_cons_ws (by decide), hjs, splitComma_joinComma hcs]

/-! ## Well-formedness of everything the parser stores -/

theorem mem_strip {a : Char} {s : PyStr} (h : a ∈ strip s) : a ∈ s :=
  (lstrip_suffix s).subset ((rstrip_prefixOf (lstrip s)).subset h)

theorem mem_afterColon {a : Char} {s : PyStr} (h : a ∈ afterColon s) : a ∈ s :=
  (afterColon_suffix s).subset h

theorem mem_removeDStars {a : Char} {s : PyStr} (h : a ∈ removeDStars s) : a ∈ s := by
  induction s using removeDStars.induct with
  | case1 rest ih =>
    rw [removeDStars] at h
    exact List.mem_cons_of_mem _ (List.mem_cons_of_mem _ (ih h))
  | case2 c rest hne ih =>
    rw [removeDStars_cons_notdouble hne] at h
    rcases List.mem_cons.mp h with h | h
    · exact h ▸ List.mem_cons_self c rest
    · exact List.mem_cons_of_mem _ (ih h)
  | case3 => simp [removeDStars] at h

/-- The value stored for a field line is stripped and newline-free. -/
theorem fieldval_wf {line : PyStr} (hnl : '\n' ∉ line) :
    WFval (strip (afterColon line)) :=
  ⟨strip_idem _, fun h => hnl (mem_afterColon (mem_strip h))⟩

/-- The title stored by a trigger line is stripped, newline-free and `"**"`-free. -/
theorem titleval_wf {line : PyStr} (hnl : '\n' ∉ line) :
    WFval (strip (afterColon (removeDStars line))) ∧
      noDStar (strip (afterColon (removeDStars line))) = true :=
  ⟨⟨strip_idem _, fun h => hnl (mem_removeDStars (mem_afterColon (mem_strip h)))⟩,
   noDStar_title line⟩

/-- Every column name stored by a `columns:` line is stripped, non-empty,
comma-free and newline-free. -/
theorem colsval_wf {line : PyStr} (hnl : '\n' ∉ line) :
    ∀ c ∈ ((splitComma (strip (afterColon line))).map strip).filter
      (fun c => !c.isEmpty), WFval c ∧ c ≠ [] ∧ ',' ∉ c := by
  intro c hc
  rw [List.mem_filter] at hc
  obtain ⟨hcm, hcne⟩ := hc
  rw [List.mem_map] at hcm
  obtain ⟨p, hp, hpc⟩ := hcm
  subst hpc
  refine ⟨⟨strip_idem _, ?_⟩, ?_, ?_⟩
  · intro h
    exact hnl (mem_afterColon (mem_strip
      (splitComma_subset _ p hp '\n' (mem_strip h))))
  · intro h
    rw [h] at hcne
    simp at hcne
  · intro h
    exact splitComma_no_comma _ p hp (mem_strip h)

/-- The empty record is well formed. -/
theorem goodIns_empty : GoodIns emptyInsight := by
  refine ⟨?_, ?_, ?_, ?_, ?_⟩ <;> intro v hv <;> simp [emptyInsight] at hv

/-- One parser step preserves the loop's structural invariant: all accumulated
records are well formed and non-empty, only the first can lack a title, and once
something is accumulated the in-progress record is titled. -/
theorem step_preserves_wf (st : PState) (raw : PyStr) (hnl : '\n' ∉ raw)
    (h1 : ∀ i ∈ st.insights, GoodIns i ∧ i.isEmpty = false)
    (h2 : ∀ i ∈ st.insights.drop 1, i.title.isSome = true)
    (h3 : GoodIns st.current)
    (h4 : st.insights ≠ [] → st.current.title.isSome = true) :
    (∀ i ∈ (step st raw).insights, GoodIns i ∧ i.isEmpty = false) ∧
    (∀ i ∈ (step st raw).insights.drop 1, i.title.isSome = true) ∧
    GoodIns (step st raw).current ∧
    ((step st raw).insights ≠ [] → (step st raw).current.title.isSome = true) := by
  have hnl' : '\n' ∉ strip raw := fun h => hnl (mem_strip h)
  unfold step applyLine
  split
  · -- trigger line: maybe append current, fresh titled record
    constructor
    · intro i hi
      by_cases he : st.current.isEmpty = true
      · rw [if_pos he] at hi
        exact h1 i hi
      · rw [Bool.not_eq_true] at he
        rw [he] at hi
        simp only [Bool.false_eq_true, if_false, List.mem_append] at hi
        rcases hi with hi | hi
        · exact h1 i hi
        · rw [List.mem_singleton] at hi
          exact hi ▸ ⟨h3, he⟩
    refine ⟨?_, ?_, ?_⟩
    · intro i hi
      by_cases he : st.current.isEmpty = true
      · rw [if_pos he] at hi
        exact h2 i hi
      · rw [Bool.not_eq_true] at he
        rw [he] at hi
        simp only [Bool.false_eq_true, if_false] at hi
        rcases hx : st.insights with _ | ⟨x, xs⟩
        · rw [hx] at hi
          simp at hi
        · rw [hx, List.cons_append, List.drop_one, List.tail_cons,
            List.mem_append] at hi
          rcases hi with hi | hi
          · exact h2 i (by rw [hx]; simpa using hi)
          · rw [List.mem_singleton] at hi
            subst hi
            exact h4 (by rw [hx]; simp)
    · obtain ⟨hwf, hnd⟩ := titleval_wf hnl'
      exact ⟨fun t ht => by injection ht with ht; exact ht ▸ ⟨hwf, hnd⟩,
        fun v hv => by simp [mkRecord] at hv,
        fun v hv => by simp [mkRecord] at hv,
        fun v hv => by simp [mkRecord] at hv,
        fun v hv => by simp [mkRecord] at hv⟩
    · intro _
      rfl
  · -- explanation line
    split
    · obtain ⟨g1, g2, g3, g4, g5⟩ := h3
      exact ⟨h1, h2,
        ⟨g1, fun v hv => by injection hv with hv; exact hv ▸ fieldval_wf hnl',
          g3, g4, g5⟩, h4⟩
    · -- chart line
      split
      · obtain ⟨g1, g2, g3, g4, g5⟩ := h3
        exact ⟨h1, h2,
          ⟨g1, g2, fun v hv => by injection hv with hv; exact hv ▸ fieldval_wf hnl',
            g4, g5⟩, h4⟩
      · -- columns line
        split
        · obtain ⟨g1, g2, g3, g4, g5⟩ := h3
          exact ⟨h1, h2,
            ⟨g1, g2, g3,
              fun cs hcs => by
                injection hcs with hcs
                exact hcs ▸ colsval_wf hnl', g5⟩, h4⟩
        · -- tip line / unrecognized line
          split
          · obtain ⟨g1, g2, g3, g4, g5⟩ := h3
            exact ⟨h1, h2,
              ⟨g1, g2, g3, g4,
                fun v hv => by injection hv with hv; exact hv ▸ fieldval_wf hnl'⟩, h4⟩
          · exact ⟨h1, h2, h3, h4⟩

/-- The whole loop establishes the invariant. -/
theorem foldl_wf (lines : List PyStr) :
    ∀ st : PState, (∀ l ∈ lines, '\n' ∉ l) →
      (∀ i ∈ st.insights, GoodIns i ∧ i.isEmpty = false) →
      (∀ i ∈ st.insights.drop 1, i.title.isSome = true) →
      GoodIns st.current →
      (st.insights ≠ [] → st.current.title.isSome = true) →
      (∀ i ∈ (lines.foldl step st).insights, GoodIns i ∧ i.isEmpty = false) ∧
      (∀ i ∈ (lines.foldl step st).insights.drop 1, i.title.isSome = true) ∧
      GoodIns (lines.foldl step st).current ∧
      ((lines.foldl step st).insights ≠ [] →
        (lines.foldl step st).current.title.isSome = true) := by
  induction lines with
  | nil => exact fun st _ h1 h2 h3 h4 => ⟨h1, h2, h3, h4⟩
  | cons l ls ih =>
    intro st hnl h1 h2 h3 h4
    obtain ⟨p1, p2, p3, p4⟩ :=
      step_preserves_wf st l (hnl l (List.mem_cons_self l ls)) h1 h2 h3 h4
    exact ih (step st l) (fun m hm => hnl m (List.mem_cons_of_mem l hm)) p1 p2 p3 p4

/-- Every sequence the parser emits is well formed: every record is `GoodIns` and
non-empty, and every record other than possibly the first carries a title key. -/
theorem parse_wf (text : PyStr) :
    (∀ i ∈ parse_detailed_insights text, GoodIns i ∧ i.isEmpty = false) ∧
    (∀ i ∈ (parse_detailed_insights text).drop 1, i.title.isSome = true) := by
  obtain ⟨p1, p2, p3, p4⟩ :=
    foldl_wf (splitNl (strip text)) ⟨[], emptyInsight⟩
      (fun l hl => splitNl_no_nl _ l hl)
      (by intro i hi; simp at hi) (by intro i hi; simp at hi)
      goodIns_empty (by intro h; simp at h)
  have hp : parseLoop text = (splitNl (strip text)).foldl step ⟨[], emptyInsight⟩ := rfl
  rw [parse_detailed_eq text]
  by_cases h : hasNonEmptyTitle (parseLoop text).current = true
  · rw [if_pos h]
    constructor
    · intro i hi
      rw [List.mem_append] at hi
      rcases hi with hi | hi
      · exact p1 i (hp ▸ hi)
      · rw [List.mem_singleton] at hi
        subst hi
        refine ⟨hp ▸ p3, ?_⟩
        rw [hasNonEmptyTitle] at h
        rcases ht : (parseLoop text).current.title with _ | t
        · rw [ht] at h; simp at h
        · simp [Insight.isEmpty, ht]
    · intro i hi
      rcases hx : (parseLoop text).insights with _ | ⟨x, xs⟩
      · rw [hx] at hi
        simp at hi
      · rw [hx, List.cons_append, List.drop_one, List.tail_cons, List.mem_append] at hi
        rcases hi with hi | hi
        · exact p2 i (by rw [hp] at hx; rw [hx]; simpa using hi)
        · rw [List.mem_singleton] at hi
          subst hi
          rw [hasNonEmptyTitle] at h
          rcases ht : (parseLoop text).current.title with _ | t
          · rw [ht] at h; simp at h
          · simp [ht]
  · rw [if_neg h]
    exact ⟨fun i hi => p1 i (hp ▸ hi), fun i hi => p2 i (hp ▸ hi)⟩

/-! ## Re-parsing a serialized sequence -/

theorem fold_explPart (ins : List Insight) (ttl : Option PyStr) (eo : Option PyStr)
    (he : ∀ v, eo = some v → strip v = v) :
    List.foldl step ⟨ins, ⟨ttl, none, none, none, none⟩⟩ (explLines eo) =
      ⟨ins, ⟨ttl, eo, none, none, none⟩⟩ := by
  unfold explLines
  rcases eo with _ | v
  · rfl
  · rw [List.foldl_cons, List.foldl_nil, step_expl_line _ (he v rfl)]

theorem fold_chartPart (ins : List Insight) (ttl eo : Option PyStr) (co : Option PyStr)
    (hc : ∀ v, co = some v → strip v = v) :
    List.foldl step ⟨ins, ⟨ttl, eo, none, none, none⟩⟩ (chartLines co) =
      ⟨ins, ⟨ttl, eo, co, none, none⟩⟩ := by
  unfold chartLines
  rcases co with _ | v
  · rfl
  · rw [List.foldl_cons, List.foldl_nil, step_chart_line _ (hc v rfl)]

theorem fold_colsPart (ins : List Insight) (ttl eo co : Option PyStr)
    (cso : Option (List PyStr))
    (hcs : ∀ cs, cso = some cs → ∀ c ∈ cs, strip c = c ∧ c ≠ [] ∧ ',' ∉ c) :
    List.foldl step ⟨ins, ⟨ttl, eo, co, none, none⟩⟩ (colsLines cso) =
      ⟨ins, ⟨ttl, eo, co, cso, none⟩⟩ := by
  unfold colsLines
  rcases cso with _ | cs
  · rfl
  · rw [List.foldl_cons, List.foldl_nil, step_cols_line _ (hcs cs rfl)]

theorem fold_tipPart (ins : List Insight) (ttl eo co : Option PyStr)
    (cso : Option (List PyStr)) (tpo : Option PyStr)
    (htp : ∀ v, tpo = some v → strip v = v) :
    List.foldl step ⟨ins, ⟨ttl, eo, co, cso, none⟩⟩ (tipLines tpo) =
      ⟨ins, ⟨ttl, eo, co, cso, tpo⟩⟩ := by
  unfold tipLines
  rcases tpo with _ | v
  · rfl
  · rw [List.foldl_cons, List.foldl_nil, step_tip_line _ (htp v rfl)]

/-- Processing the serialized lines of a titled, well-formed insight from any state
appends the previous in-progress record (when non-empty) and rebuilds the insight
as the new in-progress record. -/
theorem foldl_block_titled (st : PState) (i : Insight) (hG : GoodIns i)
    (ht : i.title.isSome = true) :
    List.foldl step st (serializeInsight i) =
      ⟨if st.current.isEmpty then st.insights else st.insights ++ [st.current], i⟩ := by
  obtain ⟨ttl, eo, co, cso, tpo⟩ := i
  obtain ⟨g1, g2, g3, g4, g5⟩ := hG
  rcases ttl with _ | t
  · simp at ht
  obtain ⟨⟨ht1, _⟩, hd⟩ := g1 t rfl
  unfold serializeInsight titleLines
  dsimp only
  rw [List.foldl_append]
  rw [List.foldl_cons, List.foldl_nil, step_title_line st ht1 hd]
  rw [List.foldl_append]
  rw [fold_explPart _ _ _ (fun v hv => (g2 v hv).1)]
  rw [List.foldl_append]
  rw [fold_chartPart _ _ _ _ (fun v hv => (g3 v hv).1)]
  rw [List.foldl_append]
  rw [fold_colsPart _ _ _ _ _ (fun cs hcs c hc =>
    ⟨((g4 cs hcs c hc).1).1, (g4 cs hcs c hc).2.1, (g4 cs hcs c hc).2.2⟩)]
  rw [fold_tipPart _ _ _ _ _ _ (fun v hv => (g5 v hv).1)]

/-- Processing the serialized lines of a title-less, well-formed insight from the
initial state rebuilds it as the in-progress record without appending anything. -/
theorem foldl_block_untitled (ins : List Insight) (i : Insight) (hG : GoodIns i)
    (ht : i.title = none) :
    List.foldl step ⟨ins, emptyInsight⟩ (serializeInsight i) = ⟨ins, i⟩ := by
  obtain ⟨ttl, eo, co, cso, tpo⟩ := i
  obtain ⟨g1, g2, g3, g4, g5⟩ := hG
  cases ht
  unfold serializeInsight titleLines
  dsimp only
  rw [List.nil_append]
  rw [List.foldl_append]
  rw [show (⟨ins, emptyInsight⟩ : PState) = ⟨ins, ⟨none, none, none, none, none⟩⟩ from rfl]
  rw [fold_explPart _ _ _ (fun v hv => (g2 v hv).1)]
  rw [List.foldl_append]
  rw [fold_chartPart _ _ _ _ (fun v hv => (g3 v hv).1)]
  rw [List.foldl_append]
  rw [fold_colsPart _ _ _ _ _ (fun cs hcs c hc =>
    ⟨((g4 cs hcs c hc).1).1, (g4 cs hcs c hc).2.1, (g4 cs hcs c hc).2.2⟩)]
  rw [fold_tipPart _ _ _ _ _ _ (fun v hv => (g5 v hv).1)]

theorem isEmpty_false_of_titled {i : Insight} (h : i.title.isSome = true) :
    i.isEmpty = false := by
  rcases ht : i.title with _ | t
  · rw [ht] at h; simp at h
  · simp [Insight.isEmpty, ht]

theorem serializeLines_cons (i : Insight) (rest : List Insight) :
    serializeLines (i :: rest) = serializeInsight i ++ serializeLines rest := rfl

/-- Processing the blocks of a list of titled, well-formed insights from a state
with a non-empty in-progress record. -/
theorem foldl_blocks : ∀ (rest : List Insight) (acc : List Insight) (cur : Insight),
    (∀ i ∈ rest, GoodIns i ∧ i.title.isSome = true) →
    cur.isEmpty = false →
    List.foldl step ⟨acc, cur⟩ (serializeLines rest) =
      (match rest.getLast? with
       | some lst => ⟨acc ++ cur :: rest.dropLast, lst⟩
       | none => ⟨acc, cur⟩) := by
  intro rest
  induction rest with
  | nil => intro acc cur _ _; rfl
  | cons b rest' ih =>
    intro acc cur hG hcur
    obtain ⟨hGb, htb⟩ := hG b (List.mem_cons_self b rest')
    rw [serializeLines_cons, List.foldl_append,
      foldl_block_titled ⟨acc, cur⟩ b hGb htb]
    dsimp only
    rw [hcur]
    simp only [Bool.false_eq_true, if_false]
    rw [ih (acc ++ [cur]) b (fun i hi => hG i (List.mem_cons_of_mem b hi))
      (isEmpty_false_of_titled htb)]
    rcases rest' with _ | ⟨c, rest''⟩
    · simp
    · have h1 : (b :: c :: rest'').getLast? = (c :: rest'').getLast? := by
        rw [List.getLast?_cons_cons]
      have h2 : (b :: c :: rest'').dropLast = b :: (c :: rest'').dropLast := rfl
      rw [h1, h2]
      rcases hl : (c :: rest'').getLast? with _ | lst
      · exact absurd hl (by simp)
      · simp

theorem joinComma_no_nl {cs : List PyStr} (h : ∀ c ∈ cs, '\n' ∉ c) :
    '\n' ∉ joinComma cs := by
  induction cs with
  | nil => simp [joinComma]
  | cons c cs' ih =>
    rcases cs' with _ | ⟨q, cs''⟩
    · exact h c (List.mem_cons_self c [])
    · have hj : joinComma (c :: q :: cs'') = c ++ ',' :: ' ' :: joinComma (q :: cs'') := rfl
      rw [hj]
      intro hmem
      rcases List.mem_append.mp hmem with hm | hm
      · exact h c (List.mem_cons_self c _) hm
      · rcases List.mem_cons.mp hm with hm | hm
        · simp at hm
        · rcases List.mem_cons.mp hm with hm | hm
          · simp at hm
          · exact ih (fun x hx => h x (List.mem_cons_of_mem c hx)) hm

theorem serializeInsight_no_nl {i : Insight} (hG : GoodIns i) :
    ∀ p ∈ serializeInsight i, '\n' ∉ p := by
  obtain ⟨g1, g2, g3, g4, g5⟩ := hG
  intro p hp
  unfold serializeInsight at hp
  rcases List.mem_append.mp hp with hp | hp
  · rcases ht : i.title with _ | t
    · rw [ht] at hp; simp [titleLines] at hp
    · rw [ht] at hp
      simp only [titleLines, List.mem_singleton] at hp
      subst hp
      obtain ⟨⟨_, hnl⟩, _⟩ := g1 t ht
      intro hmem
      rcases List.mem_append.mp hmem with hx | hx
      · revert hx; decide
      · exact hnl hx
  rcases List.mem_append.mp hp with hp | hp
  · rcases he : i.explanation with _ | v
    · rw [he] at hp; simp [explLines] at hp
    · rw [he] at hp
      simp only [explLines, List.mem_singleton] at hp
      subst hp
      obtain ⟨_, hnl⟩ := g2 v he
      intro hmem
      rcases List.mem_append.mp hmem with hx | hx
      · revert hx; decide
      · exact hnl hx
  rcases List.mem_append.mp hp with hp | hp
  · rcases hc : i.chart with _ | v
    · rw [hc] at hp; simp [chartLines] at hp
    · rw [hc] at hp
      simp only [chartLines, List.mem_singleton] at hp
      subst hp
      obtain ⟨_, hnl⟩ := g3 v hc
      intro hmem
      rcases List.mem_append.mp hmem with hx | hx
      · revert hx; decide
      · exact hnl hx
  rcases List.mem_append.mp hp with hp | hp
  · rcases hcs : i.columns with _ | cs
    · rw [hcs] at hp; simp [colsLines] at hp
    · rw [hcs] at hp
      simp only [colsLines, List.mem_singleton] at hp
      subst hp
      have hnl : '\n' ∉ joinComma cs :=
        joinComma_no_nl (fun c hc => ((g4 cs hcs c hc).1).2)
      intro hmem
      rcases List.mem_append.mp hmem with hx | hx
      · revert hx; decide
      · exact hnl hx
  · rcases htp : i.tip with _ | v
    · rw [htp] at hp; simp [tipLines] at hp
    · rw [htp] at hp
      simp only [tipLines, List.mem_singleton] at hp
      subst hp
      obtain ⟨_, hnl⟩ := g5 v htp
      intro hmem
      rcases List.mem_append.mp hmem with hx | hx
      · revert hx; decide
      · exact hnl hx

theorem serializeLines_no_nl {l : List Insight} (hG : ∀ i ∈ l, GoodIns i) :
    ∀ p ∈ serializeLines l, '\n' ∉ p := by
  induction l with
  | nil => intro p hp; simp [serializeLines] at hp
  | cons i rest ih =>
    intro p hp
    rw [serializeLines_cons, List.mem_append] at hp
    rcases hp with hp | hp
    · exact serializeInsight_no_nl (hG i (List.mem_cons_self i rest)) p hp
    · exact ih (fun j hj => hG j (List.mem_cons_of_mem i hj)) p hp

theorem serializeInsight_ne_nil {i : Insight} (hne : i.isEmpty = false) :
    serializeInsight i ≠ [] := by
  obtain ⟨ttl, eo, co, cso, tpo⟩ := i
  unfold serializeInsight titleLines explLines chartLines colsLines tipLines
  rcases ttl with _ | t <;> rcases eo with _ | e <;> rcases co with _ | c <;>
    rcases cso with _ | cs <;> rcases tpo with _ | tp <;>
    simp_all [Insight.isEmpty]

/-- Re-parsing the serialization of any well-formed insight sequence whose last
record has a non-empty title reproduces the sequence. -/
theorem parse_serialize_wf (l : List Insight)
    (h1 : ∀ i ∈ l, GoodIns i ∧ i.isEmpty = false)
    (h2 : ∀ i ∈ l.drop 1, i.title.isSome = true)
    (h3 : ∀ i, l.getLast? = some i → hasNonEmptyTitle i = true) :
    parse_detailed_insights (serializeInsights l) = l := by
  rcases l with _ | ⟨i0, rest⟩
  · rfl
  · have hGall : ∀ i ∈ i0 :: rest, GoodIns i := fun i hi => (h1 i hi).1
    have hnl := serializeLines_no_nl hGall
    have hlinesne : serializeLines (i0 :: rest) ≠ [] := by
      rw [serializeLines_cons]
      intro hctr
      exact serializeInsight_ne_nil (h1 i0 (List.mem_cons_self _ _)).2
        (List.append_eq_nil.mp hctr).1
    have hloop : parseLoop (serializeInsights (i0 :: rest)) =
        List.foldl step ⟨[], emptyInsight⟩ (serializeLines (i0 :: rest)) := by
      show (splitNl (strip (joinNl (serializeLines (i0 :: rest))))).foldl step
          ⟨[], emptyInsight⟩ = _
      rw [foldl_step_strip, splitNl_joinNl _ hlinesne hnl]
    have hfirst : List.foldl step ⟨[], emptyInsight⟩ (serializeInsight i0) = ⟨[], i0⟩ := by
      rcases ht0 : i0.title with _ | t
      · exact foldl_block_untitled [] i0 (hGall i0 (List.mem_cons_self _ _)) ht0
      · rw [foldl_block_titled ⟨[], emptyInsight⟩ i0 (hGall i0 (List.mem_cons_self _ _))
          (by rw [ht0]; rfl)]
        rfl
    rw [parse_detailed_eq, hloop, serializeLines_cons, List.foldl_append, hfirst]
    rw [foldl_blocks rest [] i0
      (fun i hi => ⟨(h1 i (List.mem_cons_of_mem _ hi)).1, h2 i (by simpa using hi)⟩)
      (h1 i0 (List.mem_cons_self _ _)).2]
    rcases rest with _ | ⟨b, rest'⟩
    · simp only [List.getLast?_nil]
      rw [h3 i0 (by simp), if_pos rfl]
      simp
    · have hbne : b :: rest' ≠ [] := by simp
      rw [List.getLast?_eq_getLast _ hbne]
      dsimp only
      have hlast : (i0 :: b :: rest').getLast? = some ((b :: rest').getLast hbne) := by
        rw [List.getLast?_cons_cons, List.getLast?_eq_getLast _ hbne]
      rw [h3 _ hlast, if_pos rfl]
      show ([] : List Insight) ++ i0 :: (b :: rest').dropLast ++
          [(b :: rest').getLast hbne] = i0 :: b :: rest'
      rw [List.nil_append, List.cons_append, List.dropLast_append_getLast hbne]

/-- C4 counterexample: the sequence parsed from `"Title:\nTitle:"` is a single
record with an empty title; serializing it gives `"Title: "`, which re-parses to
the empty sequence, not the original one. -/
theorem c4_counterexample :
    parse_detailed_insights (serializeInsights
        (parse_detailed_insights "Title:\nTitle:".toList)) ≠
      parse_detailed_insights "Title:\nTitle:".toList := by
  decide

/-- C4 amended: serialization followed by re-parsing is the identity on every
parser output whose LAST insight has a non-empty title (the counterexample shows
the restriction is needed: a trailing record with an empty title is dropped by
the end-of-input finalization of the re-parse). -/
theorem c4_amended (text : PyStr)
    (h : ∀ i, (parse_detailed_insights text).getLast? = some i →
      hasNonEmptyTitle i = true) :
    parse_detailed_insights (serializeInsights (parse_detailed_insights text)) =
      parse_detailed_insights text := by
  obtain ⟨h1, h2⟩ := parse_wf text
  exact parse_serialize_wf _ h1 h2 h

/-- C4 amended witness: a three-line reply whose parse even contains a leading
title-less record round-trips through serialization. -/
theorem c4_amended_witness :
    parse_detailed_insights (serializeInsights
        (parse_detailed_insights "Explanation: e\nTitle: X\nTip: t".toList)) =
      parse_detailed_insights "Explanation: e\nTitle: X\nTip: t".toList :=
  c4_amended "Explanation: e\nTitle: X\nTip: t".toList (by decide)
